import Mathlib

/-!
Verification of the local-model / update-cache bookkeeping of
`tools/TTS/model_updater.py` (class `ModelUpdateChecker`).

The Python module is embedded shallowly:

* Python strings are `String` (lists of characters); `str.replace` is
  specialized to the two fixed patterns used by the code
  (`'/' → "--"` and `"--" → '/'`), scanning left to right exactly as
  CPython does.
* The filesystem visible to the checker is a `FS` value: the storage
  root (its path, whether it exists, and its immediate entries); each
  model directory carries its flat list of files with integer mtimes.
* The persisted JSON cache is an association list from string keys to
  values; a value is either a dict holding optional `timestamp` /
  `updates_available` fields, or some non-dict legacy value.
* Functions that touch the outside world return an explicit record of
  their observable effects (`didScan`, `didRemote`, `saved`) next to
  their Python return value; a Python call that raises is `PyResult.raised`.
-/

set_option maxHeartbeats 1000000

namespace ModelUpdater

/-! ### The slash / double-dash name mangling

`model_name.replace('/', '--')` and `item.name.replace('--', '/')`
specialized from CPython `str.replace` (left-to-right, non-overlapping). -/

/-- `s.replace('/', '--')` on the character list. -/
def toDirNameChars : List Char → List Char
  | [] => []
  | c :: rest =>
    if c = '/' then '-' :: '-' :: toDirNameChars rest
    else c :: toDirNameChars rest

/-- `s.replace('--', '/')` on the character list. -/
def toModelIdChars : List Char → List Char
  | [] => []
  | [c] => [c]
  | c1 :: c2 :: rest =>
    if c1 = '-' ∧ c2 = '-' then '/' :: toModelIdChars rest
    else c1 :: toModelIdChars (c2 :: rest)

/-- Directory name of a model identifier (`model_name.replace('/', '--')`). -/
def dirNameOf (s : String) : String := ⟨toDirNameChars s.data⟩

/-- Model identifier recovered from a directory name (`name.replace('--', '/')`). -/
def modelIdOf (s : String) : String := ⟨toModelIdChars s.data⟩

/-- Whether a string contains the literal substring `--`. -/
def hasDoubleDash : List Char → Bool
  | [] => false
  | [_] => false
  | c1 :: c2 :: rest => (c1 == '-' && c2 == '-') || hasDoubleDash (c2 :: rest)

/-- String-level version of `hasDoubleDash`. -/
def hasDoubleDashStr (s : String) : Bool := hasDoubleDash s.data

/-- Whether a string contains no `/` character. -/
def slashFree (s : String) : Bool := decide ('/' ∉ s.data)

/-- Python `name.startswith('.')`: the first character is a dot. -/
def startsWithDot (s : String) : Bool := s.data.head? == some '.'

/-! ### The filesystem model -/

/-- A regular file inside a model directory: name and modification time. -/
structure MFile where
  name : String
  mtime : Int
deriving DecidableEq

/-- An immediate entry of the storage root: a model directory with its
files, or a non-directory entry (skipped by `list_local_models`). -/
inductive RootItem where
  | dir (name : String) (files : List MFile)
  | nondir (name : String)
deriving DecidableEq

/-- The storage root as the checker sees it (`self.model_path`). -/
structure FS where
  root : String
  rootExists : Bool
  items : List RootItem
deriving DecidableEq

/-- `model_dir.exists()`: the first entry called `dname` under the root,
directory or not — `Path.exists` is true for any entry at the path. -/
def findEntry (fs : FS) (dname : String) : Option RootItem :=
  if fs.rootExists then
    fs.items.find? fun it =>
      match it with
      | .dir n _ => n == dname
      | .nondir n => n == dname
  else none

/-- What `Path.glob` can see at an entry: a directory's files; nothing
at a non-directory, which pathlib's selector skips silently. -/
def entryFiles : RootItem → List MFile
  | .dir _ files => files
  | .nondir _ => []

/-- Whether a directory (as opposed to an arbitrary entry) called
`dname` exists under the root. -/
def dirExists (fs : FS) (dname : String) : Bool :=
  fs.rootExists && fs.items.any fun it =>
    match it with
    | .dir n _ => n == dname
    | .nondir _ => false

/-- `str(self.model_path / dir_name)`. -/
def pathJoin (a b : String) : String := a ++ "/" ++ b

/-! ### The scanner (`get_local_model_info`, `list_local_models`) -/

/-- Glob match for one of the fixed patterns `*.pth`, `*.pt`, `*.json`,
`*.ckpt`: the file name ends with the extension; `sfxRev` is the
extension spelled in reverse. -/
def matchesExt (sfxRev : List Char) (f : MFile) : Bool :=
  sfxRev.isPrefixOf f.name.data.reverse

def pthRev : List Char := ['h', 't', 'p', '.']
def ptRev : List Char := ['t', 'p', '.']
def jsonRev : List Char := ['n', 'o', 's', 'j', '.']
def ckptRev : List Char := ['t', 'p', 'k', 'c', '.']

/-- `model_files` collected pattern by pattern, as the source's loop does. -/
def globModelFiles (files : List MFile) : List MFile :=
  files.filter (matchesExt pthRev) ++ files.filter (matchesExt ptRev) ++
    files.filter (matchesExt jsonRev) ++ files.filter (matchesExt ckptRev)

/-- A file matching any of the four recognized extensions. -/
def matchesModelExt (f : MFile) : Bool :=
  matchesExt pthRev f || matchesExt ptRev f || matchesExt jsonRev f ||
    matchesExt ckptRev f

/-- `max(model_files, key=lambda f: f.stat().st_mtime)`: CPython `max`
keeps the current element unless a later one is strictly greater. -/
def maxByMtime : MFile → List MFile → MFile
  | acc, [] => acc
  | acc, f :: rest => maxByMtime (if f.mtime > acc.mtime then f else acc) rest

/-- The dictionary built by `get_local_model_info` (the derived
`last_modified_date` rendering of `last_modified` is not modelled). -/
structure LocalModelInfo where
  name : String
  path : String
  exists_ : Bool
  last_modified : Option Int
  files : Option (List String)
deriving DecidableEq

/-- `ModelUpdateChecker.get_local_model_info`. -/
def get_local_model_info (fs : FS) (model_name : String) : Option LocalModelInfo :=
  let model_dir_name := dirNameOf model_name
  match findEntry fs model_dir_name with
  | none => none
  | some entry =>
    match globModelFiles (entryFiles entry) with
    | [] =>
      some { name := model_name, path := pathJoin fs.root model_dir_name,
             exists_ := true, last_modified := none, files := none }
    | f :: rest =>
      some { name := model_name, path := pathJoin fs.root model_dir_name,
             exists_ := true,
             last_modified := some (maxByMtime f rest).mtime,
             files := some ((f :: rest).map fun g => g.name) }

/-- Immediate subdirectories of the root whose name does not start with `.`. -/
def visibleDirNames (fs : FS) : List String :=
  fs.items.filterMap fun it =>
    match it with
    | .dir n _ => if startsWithDot n then none else some n
    | .nondir _ => none

/-- `sorted(models, key=lambda x: x.get('name', ''))` comparison. -/
def infoLe (a b : LocalModelInfo) : Bool := decide (a.name ≤ b.name)

/-- `ModelUpdateChecker.list_local_models`. -/
def list_local_models (fs : FS) : List LocalModelInfo :=
  if fs.rootExists then
    ((visibleDirNames fs).filterMap fun n =>
      get_local_model_info fs (modelIdOf n)).mergeSort infoLe
  else []

/-! ### The cache -/

/-- A JSON value stored in the cache: a dict with its optional
`timestamp` and `updates_available` fields, or any non-dict value. -/
inductive CacheVal where
  | dict (timestamp : Option Int) (updates_available : Option Bool)
  | nonDict
deriving DecidableEq

/-- The persisted mapping, as an association list with unique keys. -/
abbrev Cache := List (String × CacheVal)

/-- Dictionary lookup. -/
def cacheGet (c : Cache) (k : String) : Option CacheVal :=
  (c.find? fun kv => decide (kv.1 = k)).map fun kv => kv.2

/-- Dictionary assignment `cache[k] = v`: replace in place, or append. -/
def cacheSet (c : Cache) (k : String) (v : CacheVal) : Cache :=
  if c.any fun kv => decide (kv.1 = k) then
    c.map fun kv => if kv.1 = k then (k, v) else kv
  else c ++ [(k, v)]

/-- `del cache[k]`. -/
def eraseKey (c : Cache) (k : String) : Cache :=
  c.eraseP fun kv => decide (kv.1 = k)

/-- Concrete directory contents: two recognized files, one ignored one. -/
def sampleFiles : List MFile :=
  [⟨"m.pth", 5⟩, ⟨"x.bin", 9⟩, ⟨"c.json", 7⟩]

/-- A storage root holding the single model directory `a--b`. -/
def sampleFS : FS := ⟨"/root", true, [RootItem.dir "a--b" sampleFiles]⟩

/-- A storage root whose only entry at the mapped path `a--b` is a
non-directory (a stray file, like the cache file itself). -/
def nondirFS : FS := ⟨"/r", true, [RootItem.nondir "a--b"]⟩

/-- A storage root with two model directories, a hidden directory and a
non-directory entry. -/
def listFS : FS :=
  ⟨"/r", true,
   [RootItem.dir "b--x" [], RootItem.nondir "z", RootItem.dir ".hid" [],
    RootItem.dir "a--y" [⟨"w.pt", 3⟩]]⟩

/-- A concrete mapping exercising every kind of cache entry: an expired
record, a fresh record, a dict without a timestamp, a non-dict value. -/
def sampleCache : Cache :=
  [("old", CacheVal.dict (some 0) (some true)),
   ("fresh", CacheVal.dict (some 999000) none),
   ("nots", CacheVal.dict none (some true)),
   ("legacy", CacheVal.nonDict)]

/-- What the cache file may hold on disk. -/
inductive CacheFileState where
  | absent
  | unparseable
  | parsed (c : Cache)
deriving DecidableEq

/-- `ModelUpdateChecker.load_cache`: the parsed mapping, or `{}` when the
file is missing or raises during read/parse (the exception is caught). -/
def load_cache : CacheFileState → Cache
  | .absent => []
  | .unparseable => []
  | .parsed c => c

/-! ### The update check -/

/-- Result of a Python call: a value, or a propagated exception. -/
inductive PyResult (α : Type) where
  | ok (a : α)
  | raised
deriving DecidableEq

/-- Remote metadata shape used by the comparison in `check_for_updates`. -/
structure RemoteInfo where
  last_modified : Option Int
deriving DecidableEq

/-- `ModelUpdateChecker.check_remote_model_info`: the placeholder always
returns `None`. -/
def check_remote_model_info (_model_name : String) : Option RemoteInfo :=
  none

/-- Observable outcome of `check_for_updates`: the returned boolean, the
cache mapping it left behind, and whether it saved the cache file,
scanned the local directory, or queried the remote side. -/
structure CheckResult where
  result : Bool
  cacheAfter : Cache
  saved : Bool
  didScan : Bool
  didRemote : Bool
deriving DecidableEq

/-- `ModelUpdateChecker.check_for_updates`.  `cache` is the mapping
`load_cache` returned, `now` is `datetime.now().timestamp()`.  Reading
the rate-limit fields of a non-dict cached value raises
(`AttributeError` on `.get`), which propagates. -/
def check_for_updates (fs : FS) (cache : Cache) (now : Int)
    (model_name : String) (force_check : Bool) : PyResult CheckResult :=
  let cache_key := "update_check_" ++ model_name
  let freshCheck : PyResult CheckResult :=
    match get_local_model_info fs model_name with
    | none =>
      .ok { result := false, cacheAfter := cache, saved := false,
            didScan := true, didRemote := false }
    | some local_info =>
      let remote_info := check_remote_model_info model_name
      let updates_available : Bool :=
        match remote_info with
        | some r => decide (r.last_modified.getD 0 > local_info.last_modified.getD 0)
        | none => false
      .ok { result := updates_available,
            cacheAfter := cacheSet cache cache_key
              (.dict (some now) (some updates_available)),
            saved := true, didScan := true, didRemote := true }
  if force_check then freshCheck
  else
    match cacheGet cache cache_key with
    | some (.dict ts ub) =>
      if now - ts.getD 0 < 3600 then
        .ok { result := ub.getD false, cacheAfter := cache, saved := false,
              didScan := false, didRemote := false }
      else freshCheck
    | some .nonDict => .raised
    | none => freshCheck

/-- The persisted mapping after a call to `check_for_updates`: unchanged
unless the call saved a new one (a raised call never reaches the save). -/
def cacheAfterCheck (fs : FS) (cache : Cache) (now : Int)
    (model_name : String) (force_check : Bool) : Cache :=
  match check_for_updates fs cache now model_name force_check with
  | .ok r => r.cacheAfter
  | .raised => cache

/-! ### Cache cleanup -/

/-- The pruning test of `cleanup_cache`: a dict value with a `timestamp`
field more than 7 days old. -/
def expiredVal (now : Int) : CacheVal → Bool
  | .dict (some ts) _ => decide (now - ts > 7 * 24 * 3600)
  | _ => false

/-- `ModelUpdateChecker.cleanup_cache`: when the cache file exists, load
it, delete every expired key, save; otherwise do nothing.  Returns the
resulting mapping and whether it was saved. -/
def cleanup_cache (cache : Cache) (now : Int) (cacheFileExists : Bool) :
    Cache × Bool :=
  if cacheFileExists then
    let keys_to_remove :=
      (cache.filter fun kv => expiredVal now kv.2).map fun kv => kv.1
    (keys_to_remove.foldl eraseKey cache, true)
  else (cache, false)

end ModelUpdater

/-! ## Theorems -/

namespace ModelUpdater

/-- The forward mapping never leaves a `/` in a directory name. -/
theorem slash_not_mem_toDirNameChars (l : List Char) : '/' ∉ toDirNameChars l := by
  induction l with
  | nil => simp [toDirNameChars]
  | cons c rest ih =>
    simp only [toDirNameChars]
    split
    · simp [ih]
    · next hc =>
      simp only [List.mem_cons]
      rintro (h1 | h2)
      · exact hc h1.symm
      · exact ih h2

/-- On slash-free input, mapping back to a model identifier and forward
again restores the input. -/
theorem toDirName_toModelId_of_noSlash :
    ∀ l : List Char, '/' ∉ l → toDirNameChars (toModelIdChars l) = l
  | [], _ => rfl
  | [c], h => by
    have hc : ¬ c = '/' := by
      intro hh
      exact h (by simp [hh])
    simp [toModelIdChars, toDirNameChars, hc]
  | c1 :: c2 :: rest, h => by
    have h2 : '/' ∉ c2 :: rest := by
      intro hm
      exact h (List.mem_cons_of_mem _ hm)
    have h1 : ¬ c1 = '/' := by
      intro hh
      exact h (by simp [hh])
    by_cases hd : c1 = '-' ∧ c2 = '-'
    · obtain ⟨hd1, hd2⟩ := hd
      subst hd1; subst hd2
      have hr : '/' ∉ rest := fun hm => h2 (List.mem_cons_of_mem _ hm)
      simp [toModelIdChars, toDirNameChars,
        toDirName_toModelId_of_noSlash rest hr]
    · rw [show toModelIdChars (c1 :: c2 :: rest) =
          c1 :: toModelIdChars (c2 :: rest) by
        simp [toModelIdChars, hd]]
      simp only [toDirNameChars]
      rw [if_neg h1, toDirName_toModelId_of_noSlash (c2 :: rest) h2]

/-- C3: for an identifier with no literal `--` substring, the forward
slash-to-double-dash mapping, the inverse mapping, and the forward
mapping again yield the same directory name as the forward mapping
alone. -/
theorem dirname_roundtrip (I : String) (h : hasDoubleDashStr I = false) :
    dirNameOf (modelIdOf (dirNameOf I)) = dirNameOf I :=
  congrArg String.mk
    (toDirName_toModelId_of_noSlash _ (slash_not_mem_toDirNameChars I.data))

/-- C3 witness at the identifier `a/b-c`. -/
theorem dirname_roundtrip_witness :
    hasDoubleDashStr "a/b-c" = false ∧
    dirNameOf (modelIdOf (dirNameOf "a/b-c")) = dirNameOf "a/b-c" :=
  ⟨by decide, dirname_roundtrip "a/b-c" (by decide)⟩

/-- C8: `load_cache` returns the parsed mapping when the file exists and
parses, and the empty mapping (without raising) when the file is absent
or unparseable. -/
theorem load_cache_spec (c : Cache) :
    load_cache (CacheFileState.parsed c) = c ∧
    load_cache CacheFileState.absent = [] ∧
    load_cache CacheFileState.unparseable = [] :=
  ⟨rfl, rfl, rfl⟩

/-- C10: `get_local_model_info` never reports `exists = False`: its
result is `none`, or a record with `exists = True`, the queried name,
and the storage root joined with the mangled directory name as path. -/
theorem get_local_model_info_shape (fs : FS) (m : String) :
    match get_local_model_info fs m with
    | none => True
    | some info =>
        info.exists_ = true ∧ info.name = m ∧
        info.path = pathJoin fs.root (dirNameOf m) := by
  rcases hfe : findEntry fs (dirNameOf m) with _ | e
  · simp [get_local_model_info, hfe]
  · rcases hg : globModelFiles (entryFiles e) with _ | ⟨f, rest⟩ <;>
      simp [get_local_model_info, hfe, hg]

/-- C1: with a cached dict entry younger than one hour under the model's
key, an unforced `check_for_updates` returns the stored
`updates_available` boolean, scans nothing, contacts nothing, and
neither modifies nor persists the cache. -/
theorem check_for_updates_rate_limited (fs : FS) (cache : Cache)
    (now ts : Int) (m : String) (b : Bool)
    (hget : cacheGet cache ("update_check_" ++ m) =
      some (CacheVal.dict (some ts) (some b)))
    (hfresh : now - ts < 3600) :
    check_for_updates fs cache now m false =
      PyResult.ok { result := b, cacheAfter := cache, saved := false,
                    didScan := false, didRemote := false } := by
  simp [check_for_updates, hget, hfresh]

/-- C1 witness: a cache checked 50 seconds ago with `True` stored. -/
theorem check_for_updates_rate_limited_witness :
    check_for_updates ⟨"/r", true, []⟩
        [("update_check_m", CacheVal.dict (some 50) (some true))] 100 "m" false =
      PyResult.ok { result := true,
                    cacheAfter :=
                      [("update_check_m", CacheVal.dict (some 50) (some true))],
                    saved := false, didScan := false, didRemote := false } :=
  check_for_updates_rate_limited ⟨"/r", true, []⟩
    [("update_check_m", CacheVal.dict (some 50) (some true))] 100 50 "m" true
    (by decide) (by decide)

end ModelUpdater

namespace ModelUpdater

/-- `cacheGet` on a cons cell. -/
theorem cacheGet_cons (a : String × CacheVal) (c : Cache) (k : String) :
    cacheGet (a :: c) k = if a.1 = k then some a.2 else cacheGet c k := by
  by_cases h : a.1 = k <;> simp [cacheGet, List.find?, h]

/-- A key outside the mapping looks up to nothing. -/
theorem cacheGet_eq_none_of_not_mem {c : Cache} {k : String}
    (h : k ∉ c.map Prod.fst) : cacheGet c k = none := by
  induction c with
  | nil => rfl
  | cons a rest ih =>
    simp only [List.map_cons, List.mem_cons] at h
    push_neg at h
    obtain ⟨h1, h2⟩ := h
    rw [cacheGet_cons, if_neg fun hh => h1 hh.symm]
    exact ih h2

/-- With unique keys, lookup success is membership of the binding. -/
theorem cacheGet_eq_some_iff :
    ∀ {c : Cache}, (c.map Prod.fst).Nodup → ∀ {k : String} {v : CacheVal},
      (cacheGet c k = some v ↔ (k, v) ∈ c)
  | [], _, k, v => by simp [cacheGet]
  | a :: rest, hnd, k, v => by
    obtain ⟨ha, hrest⟩ := by
      simpa only [List.map_cons, List.nodup_cons] using hnd
    rw [cacheGet_cons, List.mem_cons]
    by_cases hak : a.1 = k
    · rw [if_pos hak]
      constructor
      · rintro h
        left
        cases a
        simp_all
      · rintro (h | h)
        · cases a
          simp_all
        · exfalso
          exact ha (by simpa [hak] using List.mem_map_of_mem Prod.fst h)
    · rw [if_neg hak, cacheGet_eq_some_iff hrest]
      constructor
      · exact fun h => Or.inr h
      · rintro (h | h)
        · exfalso
          cases a
          simp_all
        · exact h

/-- Erasing a key preserves uniqueness of the remaining keys. -/
theorem nodup_keys_eraseKey {c : Cache} (hnd : (c.map Prod.fst).Nodup)
    (k : String) : ((eraseKey c k).map Prod.fst).Nodup :=
  List.Nodup.sublist (List.Sublist.map Prod.fst (List.eraseP_sublist c)) hnd

/-- `del cache[k]` removes exactly the binding of `k` (unique keys). -/
theorem cacheGet_eraseKey :
    ∀ (c : Cache), (c.map Prod.fst).Nodup → ∀ (k k' : String),
      cacheGet (eraseKey c k) k' = if k' = k then none else cacheGet c k'
  | [], _, k, k' => by
    simp only [eraseKey, List.eraseP_nil, cacheGet, List.find?_nil, Option.map_none']
    split <;> rfl
  | a :: rest, hnd, k, k' => by
    obtain ⟨ha, hrest⟩ := by
      simpa only [List.map_cons, List.nodup_cons] using hnd
    by_cases hak : a.1 = k
    · have he : eraseKey (a :: rest) k = rest := by
        simp [eraseKey, List.eraseP_cons, hak]
      rw [he]
      by_cases hk' : k' = k
      · subst hk'
        rw [if_pos rfl]
        exact cacheGet_eq_none_of_not_mem (by rw [← hak]; exact ha)
      · rw [if_neg hk', cacheGet_cons,
          if_neg (show ¬ a.1 = k' from fun hh => hk' (hh.symm.trans hak))]
    · have he : eraseKey (a :: rest) k = a :: eraseKey rest k := by
        simp [eraseKey, List.eraseP_cons, hak]
      rw [he, cacheGet_cons, cacheGet_cons]
      by_cases hk'a : a.1 = k'
      · have hk'k : ¬ k' = k := fun hh => hak (hk'a.trans hh)
        rw [if_pos hk'a, if_neg hk'k, if_pos hk'a]
      · rw [if_neg hk'a, if_neg hk'a, cacheGet_eraseKey rest hrest k k']

/-- Folding `del` over a list of keys removes exactly those keys. -/
theorem cacheGet_foldl_eraseKey :
    ∀ (ks : List String) (c : Cache), (c.map Prod.fst).Nodup → ∀ k : String,
      cacheGet (ks.foldl eraseKey c) k = if k ∈ ks then none else cacheGet c k
  | [], c, _, k => by simp
  | k0 :: ks, c, hnd, k => by
    rw [List.foldl_cons,
      cacheGet_foldl_eraseKey ks (eraseKey c k0) (nodup_keys_eraseKey hnd k0) k,
      cacheGet_eraseKey c hnd k0 k]
    by_cases h1 : k ∈ ks
    · simp [h1]
    · by_cases h2 : k = k0 <;> simp [h1, h2]

/-- C2: `cleanup_cache` saves a mapping from which exactly the dict
entries whose timestamp lies more than 604800 seconds in the past have
been removed; every other entry — non-dict values and dicts without a
timestamp included — is preserved. -/
theorem cleanup_cache_spec (cache : Cache) (now : Int)
    (hnd : (cache.map Prod.fst).Nodup) :
    (cleanup_cache cache now true).2 = true ∧
    ∀ k, cacheGet (cleanup_cache cache now true).1 k =
      match cacheGet cache k with
      | some (CacheVal.dict (some ts) ub) =>
          if now - ts > 604800 then none else some (CacheVal.dict (some ts) ub)
      | v => v := by
  refine ⟨rfl, fun k => ?_⟩
  have hfold := cacheGet_foldl_eraseKey
    ((cache.filter fun kv => expiredVal now kv.2).map fun kv => kv.1) cache hnd k
  rw [show (cleanup_cache cache now true).1 =
      ((cache.filter fun kv => expiredVal now kv.2).map fun kv => kv.1).foldl
        eraseKey cache from rfl, hfold]
  by_cases hk : k ∈ (cache.filter fun kv => expiredVal now kv.2).map fun kv => kv.1
  · rw [if_pos hk]
    obtain ⟨kv, hkv, hk1⟩ := List.mem_map.mp hk
    obtain ⟨hmem, hexp⟩ := List.mem_filter.mp hkv
    have hget : cacheGet cache k = some kv.2 :=
      (cacheGet_eq_some_iff hnd).mpr (by rw [← hk1]; exact hmem)
    rw [hget]
    rcases hv : kv.2 with ⟨tso, ub⟩ | _
    · rcases tso with _ | ts
      · rw [hv] at hexp
        exact absurd hexp (by simp [expiredVal])
      · rw [hv] at hexp
        have : now - ts > 604800 := by
          have := of_decide_eq_true (by simpa [expiredVal] using hexp)
          omega
        simp [this]
    · rw [hv] at hexp
      exact absurd hexp (by simp [expiredVal])
  · rw [if_neg hk]
    rcases hget : cacheGet cache k with _ | v
    · rfl
    · rcases v with ⟨tso, ub⟩ | _
      · rcases tso with _ | ts
        · rfl
        · have hcond : ¬ now - ts > 604800 := by
            intro hgt
            apply hk
            have hmem : (k, CacheVal.dict (some ts) ub) ∈ cache :=
              (cacheGet_eq_some_iff hnd).mp hget
            refine List.mem_map.mpr ⟨(k, CacheVal.dict (some ts) ub), ?_, rfl⟩
            refine List.mem_filter.mpr ⟨hmem, ?_⟩
            simp only [expiredVal]
            exact decide_eq_true (by omega)
          simp [hcond]
      · rfl

/-- C2 witness: a mapping with an expired entry, a fresh entry, a
timestamp-less dict and a non-dict legacy value. -/
theorem cleanup_cache_spec_witness :
    (sampleCache.map Prod.fst).Nodup ∧
    ((cleanup_cache sampleCache 1000000 true).2 = true ∧
      ∀ k, cacheGet (cleanup_cache sampleCache 1000000 true).1 k =
        (match cacheGet sampleCache k with
         | some (CacheVal.dict (some ts) ub) =>
             if (1000000 : Int) - ts > 604800 then none
             else some (CacheVal.dict (some ts) ub)
         | v => v)) :=
  ⟨by decide, cleanup_cache_spec sampleCache 1000000 (by decide)⟩

end ModelUpdater

namespace ModelUpdater

/-- Replacing the binding of `key` in place does not affect other keys. -/
theorem cacheGet_map_set_ne (c : Cache) (key : String) (v : CacheVal)
    (k : String) (hk : k ≠ key) :
    cacheGet (c.map fun kv => if kv.1 = key then (key, v) else kv) k =
      cacheGet c k := by
  induction c with
  | nil => rfl
  | cons a rest ih =>
    rw [List.map_cons, cacheGet_cons, cacheGet_cons]
    by_cases ha : a.1 = key
    · rw [if_pos ha,
        if_neg (show ¬ ((key, v) : String × CacheVal).1 = k from
          fun hh => hk hh.symm),
        if_neg (show ¬ a.1 = k from fun hh => hk (hh.symm.trans ha)), ih]
    · rw [if_neg ha]
      by_cases hak : a.1 = k
      · rw [if_pos hak, if_pos hak]
      · rw [if_neg hak, if_neg hak, ih]

/-- `cache[key] = v` leaves every other key's entry unchanged. -/
theorem cacheGet_cacheSet_ne (c : Cache) (key : String) (v : CacheVal)
    (k : String) (hk : k ≠ key) :
    cacheGet (cacheSet c key v) k = cacheGet c k := by
  unfold cacheSet
  split
  · exact cacheGet_map_set_ne c key v k hk
  · unfold cacheGet
    rw [List.find?_append]
    have hkk : ¬ key = k := fun hh => hk hh.symm
    have hone : List.find? (fun kv => decide (kv.1 = k)) [(key, v)] = none := by
      simp [List.find?, hkk]
    rw [hone]
    simp

/-- After `cache[key] = v`, looking up `key` yields `v`. -/
theorem cacheGet_cacheSet_self (c : Cache) (key : String) (v : CacheVal) :
    cacheGet (cacheSet c key v) key = some v := by
  unfold cacheSet
  split
  · next hany =>
    induction c with
    | nil => simp at hany
    | cons a rest ih =>
      rw [List.map_cons, cacheGet_cons]
      by_cases ha : a.1 = key
      · rw [if_pos ha]
        simp
      · rw [if_neg ha, if_neg (show ¬ a.1 = key from ha)]
        exact ih (by simpa [List.any_cons, ha] using hany)
  · next hany =>
    unfold cacheGet
    rw [List.find?_append]
    have hnone : List.find? (fun kv => decide (kv.1 = key)) c = none := by
      rw [List.find?_eq_none]
      intro kv hkv
      simp only [decide_eq_true_eq]
      intro hh
      exact hany (List.any_eq_true.mpr ⟨kv, hkv, by simp [hh]⟩)
    rw [hnone]
    simp [List.find?]

/-- C9: `check_for_updates` never removes or alters any cache entry
other than the one under its own key; every other key maps to the same
entry before and after the call (removal happens only in `cleanup_cache`). -/
theorem check_for_updates_frame (fs : FS) (cache : Cache) (now : Int)
    (m : String) (force : Bool) (k : String)
    (hk : k ≠ "update_check_" ++ m) :
    cacheGet (cacheAfterCheck fs cache now m force) k = cacheGet cache k := by
  have hafter : cacheAfterCheck fs cache now m force = cache ∨
      ∃ v, cacheAfterCheck fs cache now m force =
        cacheSet cache ("update_check_" ++ m) v := by
    unfold cacheAfterCheck check_for_updates
    cases force with
    | true =>
      rcases hg : get_local_model_info fs m with _ | info
      · left
        simp [hg]
      · right
        exact ⟨CacheVal.dict (some now) (some false),
          by simp [hg, check_remote_model_info]⟩
    | false =>
      rcases hc : cacheGet cache ("update_check_" ++ m) with _ | v
      · rcases hg : get_local_model_info fs m with _ | info
        · left
          simp [hg, hc]
        · right
          exact ⟨CacheVal.dict (some now) (some false),
            by simp [hg, hc, check_remote_model_info]⟩
      · rcases v with ⟨ts, ub⟩ | _
        · by_cases ht : now - ts.getD 0 < 3600
          · left
            simp [hc, ht]
          · rcases hg : get_local_model_info fs m with _ | info
            · left
              simp [hc, ht, hg]
            · right
              exact ⟨CacheVal.dict (some now) (some false),
                by simp [hc, ht, hg, check_remote_model_info]⟩
        · left
          simp [hc]
  rcases hafter with h | ⟨v, h⟩
  · rw [h]
  · rw [h]
    exact cacheGet_cacheSet_ne cache _ v k hk

/-- C9 witness: a key unrelated to the checked model survives a check
that performs a cache write. -/
theorem check_for_updates_frame_witness :
    cacheGet (cacheAfterCheck ⟨"/r", true, [RootItem.dir "m" [⟨"a.pth", 1⟩]]⟩
        [("other", CacheVal.nonDict)] 100 "m" false) "other" =
      cacheGet [("other", CacheVal.nonDict)] "other" :=
  check_for_updates_frame ⟨"/r", true, [RootItem.dir "m" [⟨"a.pth", 1⟩]]⟩
    [("other", CacheVal.nonDict)] 100 "m" false "other" (by decide)

end ModelUpdater

namespace ModelUpdater

/-- When the gate does not answer from the cache and a local record
exists, the call is the fresh check: the remote stub yields nothing, so
it returns `False` and stores `{timestamp: now, updates_available:
False}` under the model's key. -/
theorem check_for_updates_fresh_eq (fs : FS) (cache : Cache) (now : Int)
    (m : String) (force : Bool) (info : LocalModelInfo)
    (hloc : get_local_model_info fs m = some info)
    (hgate : force = true ∨ cacheGet cache ("update_check_" ++ m) = none ∨
      ∃ ts ub, cacheGet cache ("update_check_" ++ m) =
          some (CacheVal.dict ts ub) ∧ ¬ now - ts.getD 0 < 3600) :
    check_for_updates fs cache now m force =
      PyResult.ok
        { result := false,
          cacheAfter := cacheSet cache ("update_check_" ++ m)
            (CacheVal.dict (some now) (some false)),
          saved := true, didScan := true, didRemote := true } := by
  rcases hgate with hf | hc | ⟨ts, ub, hc, ht⟩
  · subst hf
    simp [check_for_updates, hloc, check_remote_model_info]
  · cases force with
    | true => simp [check_for_updates, hloc, check_remote_model_info]
    | false => simp [check_for_updates, hc, hloc, check_remote_model_info]
  · cases force with
    | true => simp [check_for_updates, hloc, check_remote_model_info]
    | false => simp [check_for_updates, hc, ht, hloc, check_remote_model_info]

/-- When no directory of that name exists, an entry found at the mapped
path is a non-directory bearing that name. -/
theorem findEntry_nondir_of_not_dirExists (fs : FS) (d : String)
    (e : RootItem) (hfe : findEntry fs d = some e)
    (hnd : dirExists fs d = false) : e = RootItem.nondir d := by
  unfold findEntry at hfe
  split at hfe
  · next hroot =>
    have hmem := List.mem_of_find?_eq_some hfe
    have hp := List.find?_some hfe
    cases e with
    | dir n files =>
      simp only [beq_iff_eq] at hp
      subst hp
      have hany : (fs.items.any fun it =>
          match it with
          | RootItem.dir n2 _ => n2 == n
          | RootItem.nondir _ => false) = true := by
        exact List.any_eq_true.mpr ⟨RootItem.dir n files, hmem, by simp⟩
      unfold dirExists at hnd
      rw [hroot, Bool.true_and] at hnd
      rw [hnd] at hany
      exact absurd hany (by simp)
    | nondir n =>
      simp only [beq_iff_eq] at hp
      subst hp
      rfl
  · exact absurd hfe (by simp)

/-- C4: when no directory exists at the model's mapped path (and the
entry cached under the model's key, if any, is a dict that is not both
fresh and `True`), `check_for_updates` returns `False` and never stores
an `updates_available = True` entry for that model: afterwards the
model's key holds its previous entry or `{timestamp: now,
updates_available: False}` — with nothing at the path nothing is
written, while a stray non-directory there makes the fresh check run
and store the `False` entry. -/
theorem check_for_updates_no_local (fs : FS) (cache : Cache) (now : Int)
    (m : String) (force : Bool)
    (hdir : dirExists fs (dirNameOf m) = false)
    (hcache : ∀ v, cacheGet cache ("update_check_" ++ m) = some v →
      ∃ ts ub, v = CacheVal.dict ts ub ∧
        ¬(now - ts.getD 0 < 3600 ∧ ub.getD false = true)) :
    ∃ r, check_for_updates fs cache now m force = PyResult.ok r ∧
      r.result = false ∧
      (cacheGet r.cacheAfter ("update_check_" ++ m) =
          cacheGet cache ("update_check_" ++ m) ∨
        cacheGet r.cacheAfter ("update_check_" ++ m) =
          some (CacheVal.dict (some now) (some false))) := by
  rcases hfe : findEntry fs (dirNameOf m) with _ | e
  · -- nothing at the mapped path: the scan fails and nothing is written
    have hinfo : get_local_model_info fs m = none := by
      simp [get_local_model_info, hfe]
    cases force with
    | true =>
      exact ⟨⟨false, cache, false, true, false⟩,
        by simp [check_for_updates, hinfo], rfl, Or.inl rfl⟩
    | false =>
      rcases hc : cacheGet cache ("update_check_" ++ m) with _ | v
      · exact ⟨⟨false, cache, false, true, false⟩,
          by simp [check_for_updates, hc, hinfo], rfl, Or.inl hc⟩
      · obtain ⟨ts, ub, rfl, hnot⟩ := hcache v hc
        by_cases ht : now - ts.getD 0 < 3600
        · have hub : ub.getD false = false := by
            cases hb : ub.getD false
            · rfl
            · exact absurd ⟨ht, hb⟩ hnot
          refine ⟨⟨false, cache, false, false, false⟩, ?_, rfl, Or.inl hc⟩
          simpa [check_for_updates, hc, ht] using congrArg (fun b =>
            PyResult.ok (⟨b, cache, false, false, false⟩ : CheckResult)) hub
        · exact ⟨⟨false, cache, false, true, false⟩,
            by simp [check_for_updates, hc, ht, hinfo], rfl, Or.inl hc⟩
  · -- a stray non-directory at the mapped path: `exists()` holds, glob
    -- sees nothing, and the fresh check stores a `False` entry
    have he := findEntry_nondir_of_not_dirExists fs (dirNameOf m) e hfe hdir
    subst he
    have hinfo : get_local_model_info fs m = some
        { name := m, path := pathJoin fs.root (dirNameOf m),
          exists_ := true, last_modified := none, files := none } := by
      simp [get_local_model_info, hfe, entryFiles, globModelFiles]
    cases force with
    | true =>
      exact ⟨_, check_for_updates_fresh_eq fs cache now m true _ hinfo
        (Or.inl rfl), rfl, Or.inr (cacheGet_cacheSet_self cache _ _)⟩
    | false =>
      rcases hc : cacheGet cache ("update_check_" ++ m) with _ | v
      · exact ⟨_, check_for_updates_fresh_eq fs cache now m false _ hinfo
          (Or.inr (Or.inl hc)), rfl, Or.inr (cacheGet_cacheSet_self cache _ _)⟩
      · obtain ⟨ts, ub, rfl, hnot⟩ := hcache v hc
        by_cases ht : now - ts.getD 0 < 3600
        · have hub : ub.getD false = false := by
            cases hb : ub.getD false
            · rfl
            · exact absurd ⟨ht, hb⟩ hnot
          refine ⟨⟨false, cache, false, false, false⟩, ?_, rfl, Or.inl hc⟩
          simpa [check_for_updates, hc, ht] using congrArg (fun b =>
            PyResult.ok (⟨b, cache, false, false, false⟩ : CheckResult)) hub
        · exact ⟨_, check_for_updates_fresh_eq fs cache now m false _ hinfo
            (Or.inr (Or.inr ⟨ts, ub, hc, ht⟩)), rfl,
            Or.inr (cacheGet_cacheSet_self cache _ _)⟩

/-- C4 witness: a stray file at the mapped path and an empty cache — the
check returns `False` and the key ends up holding a `False` entry. -/
theorem check_for_updates_no_local_witness :
    dirExists nondirFS (dirNameOf "a/b") = false ∧
    ∃ r, check_for_updates nondirFS [] 100 "a/b" false = PyResult.ok r ∧
      r.result = false ∧
      (cacheGet r.cacheAfter ("update_check_" ++ "a/b") =
          cacheGet [] ("update_check_" ++ "a/b") ∨
        cacheGet r.cacheAfter ("update_check_" ++ "a/b") =
          some (CacheVal.dict (some 100) (some false))) :=
  ⟨by decide, check_for_updates_no_local nondirFS [] 100 "a/b" false (by decide)
    (fun v h => by simp [cacheGet] at h)⟩

/-- C5: whenever the rate-limit gate does not answer from the cache and
a local record exists, `check_for_updates` returns `False` (the remote
lookup yields nothing, and updates are flagged only on strictly newer
remote data) and persists `{timestamp: now, updates_available: False}`
under the model's key. -/
theorem check_for_updates_fresh_path (fs : FS) (cache : Cache) (now : Int)
    (m : String) (force : Bool) (info : LocalModelInfo)
    (hloc : get_local_model_info fs m = some info)
    (hgate : force = true ∨ cacheGet cache ("update_check_" ++ m) = none ∨
      ∃ ts ub, cacheGet cache ("update_check_" ++ m) =
          some (CacheVal.dict ts ub) ∧ ¬ now - ts.getD 0 < 3600) :
    ∃ r, check_for_updates fs cache now m force = PyResult.ok r ∧
      r.result = false ∧ r.saved = true ∧ r.didScan = true ∧
      r.didRemote = true ∧
      cacheGet r.cacheAfter ("update_check_" ++ m) =
        some (CacheVal.dict (some now) (some false)) := by
  exact ⟨_, check_for_updates_fresh_eq fs cache now m force info hloc hgate,
    rfl, rfl, rfl, rfl, cacheGet_cacheSet_self cache _ _⟩

/-- C5 witness: a stale cached entry and a present local model. -/
theorem check_for_updates_fresh_path_witness :
    get_local_model_info ⟨"/r", true, [RootItem.dir "m" [⟨"a.pth", 1⟩]]⟩ "m" =
      some ⟨"m", "/r/m", true, some 1, some ["a.pth"]⟩ ∧
    ∃ r, check_for_updates ⟨"/r", true, [RootItem.dir "m" [⟨"a.pth", 1⟩]]⟩
        [("update_check_m", CacheVal.dict (some 0) (some true))] 5000 "m" false =
        PyResult.ok r ∧
      r.result = false ∧ r.saved = true ∧ r.didScan = true ∧
      r.didRemote = true ∧
      cacheGet r.cacheAfter ("update_check_" ++ "m") =
        some (CacheVal.dict (some 5000) (some false)) :=
  ⟨by decide,
   check_for_updates_fresh_path ⟨"/r", true, [RootItem.dir "m" [⟨"a.pth", 1⟩]]⟩
     [("update_check_m", CacheVal.dict (some 0) (some true))] 5000 "m" false
     ⟨"m", "/r/m", true, some 1, some ["a.pth"]⟩ (by decide)
     (Or.inr (Or.inr ⟨some 0, some true, by decide, by decide⟩))⟩

end ModelUpdater

namespace ModelUpdater

/-- Two boolean prefixes of the same list are comparable. -/
theorem isPrefixOf_comparable : ∀ (p q r : List Char),
    p.isPrefixOf r = true → q.isPrefixOf r = true →
    p.isPrefixOf q = true ∨ q.isPrefixOf p = true
  | [], _, _, _, _ => Or.inl (by simp [List.isPrefixOf])
  | _, [], _, _, _ => Or.inr (by simp [List.isPrefixOf])
  | a :: p, b :: q, r, h1, h2 => by
    cases r with
    | nil => simp [List.isPrefixOf] at h1
    | cons c r =>
      simp only [List.isPrefixOf, Bool.and_eq_true, beq_iff_eq] at h1 h2
      obtain ⟨rfl, h1⟩ := h1
      obtain ⟨rfl, h2⟩ := h2
      rcases isPrefixOf_comparable p q r h1 h2 with h | h
      · exact Or.inl (by simp [List.isPrefixOf, h])
      · exact Or.inr (by simp [List.isPrefixOf, h])

/-- Two extension patterns, neither a suffix of the other, never match
the same file name. -/
theorem matchesExt_disjoint (p q : List Char)
    (hpq : p.isPrefixOf q = false) (hqp : q.isPrefixOf p = false)
    (f : MFile) : ¬(matchesExt p f = true ∧ matchesExt q f = true) := by
  rintro ⟨h1, h2⟩
  unfold matchesExt at h1 h2
  rcases isPrefixOf_comparable p q _ h1 h2 with h | h
  · rw [h] at hpq
    exact absurd hpq (by simp)
  · rw [h] at hqp
    exact absurd hqp (by simp)

/-- Catenating the filters of two disjoint predicates is a permutation
of the filter of their disjunction. -/
theorem filter_or_perm {α : Type} (p q : α → Bool)
    (hdisj : ∀ a, ¬(p a = true ∧ q a = true)) :
    ∀ l : List α, (l.filter p ++ l.filter q).Perm
      (l.filter fun a => p a || q a)
  | [] => by simp
  | a :: l => by
    by_cases hp : p a = true
    · have hq : q a = false := by
        cases hqa : q a
        · rfl
        · exact absurd ⟨hp, hqa⟩ (hdisj a)
      simp only [List.filter_cons, hp, hq, Bool.true_or, List.cons_append]
      exact List.Perm.cons a (filter_or_perm p q hdisj l)
    · have hp' : p a = false := by
        cases hpa : p a
        · rfl
        · exact absurd hpa hp
      by_cases hq : q a = true
      · simp only [List.filter_cons, hp', hq, Bool.false_or]
        exact List.perm_middle.trans (List.Perm.cons a (filter_or_perm p q hdisj l))
      · have hq' : q a = false := by
          cases hqa : q a
          · rfl
          · exact absurd hqa hq
        simp only [List.filter_cons, hp', hq', Bool.false_or]
        exact filter_or_perm p q hdisj l

/-- Disjointness is preserved by disjunction on the right. -/
theorem disjoint_or {α : Type} (p q r : α → Bool)
    (h1 : ∀ a, ¬(p a = true ∧ q a = true))
    (h2 : ∀ a, ¬(p a = true ∧ r a = true)) (a : α) :
    ¬(p a = true ∧ (q a || r a) = true) := by
  rintro ⟨hp, hqr⟩
  rcases Bool.or_eq_true_iff.mp hqr with h | h
  · exact h1 a ⟨hp, h⟩
  · exact h2 a ⟨hp, h⟩

/-- The pattern-by-pattern glob result is a permutation of a single
filter over the union of the four extensions. -/
theorem globModelFiles_perm (l : List MFile) :
    (globModelFiles l).Perm (l.filter matchesModelExt) := by
  have d12 := matchesExt_disjoint pthRev ptRev (by decide) (by decide)
  have d13 := matchesExt_disjoint pthRev jsonRev (by decide) (by decide)
  have d14 := matchesExt_disjoint pthRev ckptRev (by decide) (by decide)
  have d23 := matchesExt_disjoint ptRev jsonRev (by decide) (by decide)
  have d24 := matchesExt_disjoint ptRev ckptRev (by decide) (by decide)
  have d34 := matchesExt_disjoint jsonRev ckptRev (by decide) (by decide)
  have h34 := filter_or_perm (matchesExt jsonRev) (matchesExt ckptRev) d34 l
  have h234 := filter_or_perm (matchesExt ptRev)
    (fun f => matchesExt jsonRev f || matchesExt ckptRev f)
    (disjoint_or _ _ _ d23 d24) l
  have h1234 := filter_or_perm (matchesExt pthRev)
    (fun f => matchesExt ptRev f || (matchesExt jsonRev f || matchesExt ckptRev f))
    (disjoint_or _ _ _ d12 (disjoint_or _ _ _ d13 d14)) l
  have step1 : (globModelFiles l).Perm
      (l.filter (matchesExt pthRev) ++
        (l.filter (matchesExt ptRev) ++
          (l.filter fun f => matchesExt jsonRev f || matchesExt ckptRev f))) := by
    unfold globModelFiles
    rw [List.append_assoc, List.append_assoc]
    exact List.Perm.append_left _ (List.Perm.append_left _ h34)
  have step2 : (globModelFiles l).Perm
      (l.filter (matchesExt pthRev) ++
        (l.filter fun f =>
          matchesExt ptRev f || (matchesExt jsonRev f || matchesExt ckptRev f))) :=
    step1.trans (List.Perm.append_left _ h234)
  have step3 := step2.trans h1234
  have hsame : (fun f => matchesExt pthRev f ||
      (matchesExt ptRev f || (matchesExt jsonRev f || matchesExt ckptRev f))) =
      matchesModelExt := by
    funext f
    simp [matchesModelExt, Bool.or_assoc]
  rw [hsame] at step3
  exact step3

/-- The running maximum is one of the candidates. -/
theorem maxByMtime_mem : ∀ (acc : MFile) (l : List MFile),
    maxByMtime acc l ∈ acc :: l
  | acc, [] => by simp [maxByMtime]
  | acc, f :: rest => by
    rw [show maxByMtime acc (f :: rest) =
        maxByMtime (if f.mtime > acc.mtime then f else acc) rest from rfl]
    rcases List.mem_cons.mp
        (maxByMtime_mem (if f.mtime > acc.mtime then f else acc) rest) with h | h
    · rw [h]
      split
      · simp
      · simp
    · simp [List.mem_cons, h]

/-- The starting accumulator never exceeds the running maximum. -/
theorem le_maxByMtime_acc : ∀ (acc : MFile) (l : List MFile),
    acc.mtime ≤ (maxByMtime acc l).mtime
  | _, [] => le_refl _
  | acc, f :: rest => by
    rw [show maxByMtime acc (f :: rest) =
        maxByMtime (if f.mtime > acc.mtime then f else acc) rest from rfl]
    have ih := le_maxByMtime_acc (if f.mtime > acc.mtime then f else acc) rest
    have hacc : acc.mtime ≤ (if f.mtime > acc.mtime then f else acc).mtime := by
      split <;> omega
    exact le_trans hacc ih

/-- Every candidate is bounded by the running maximum — CPython
`max(files, key=mtime)` computes an upper bound of all the keys. -/
theorem maxByMtime_le : ∀ (acc : MFile) (l : List MFile) (g : MFile),
    g ∈ acc :: l → g.mtime ≤ (maxByMtime acc l).mtime
  | acc, [], g, hg => by
    have : g = acc := by simpa using hg
    simp [maxByMtime, this]
  | acc, f :: rest, g, hg => by
    rw [show maxByMtime acc (f :: rest) =
        maxByMtime (if f.mtime > acc.mtime then f else acc) rest from rfl]
    rcases List.mem_cons.mp hg with h | h
    · subst h
      have hacc : g.mtime ≤ (if f.mtime > g.mtime then f else g).mtime := by
        split <;> omega
      exact le_trans hacc (le_maxByMtime_acc _ rest)
    · rcases List.mem_cons.mp h with h' | h'
      · subst h'
        have hf : g.mtime ≤ (if g.mtime > acc.mtime then g else acc).mtime := by
          split <;> omega
        exact le_trans hf (le_maxByMtime_acc _ rest)
      · exact maxByMtime_le (if f.mtime > acc.mtime then f else acc) rest g
          (List.mem_cons_of_mem _ h')

/-- C6 (amended): `get_local_model_info` returns nothing when no entry
exists at the mapped path; when an entry exists — `Path.exists()` is
true for a non-directory too — it returns a record with `exists = True`
that, when at least one visible file matches a recognized extension,
carries the maximum mtime among the matching files and their full name
list, and otherwise (no matching file, or a non-directory entry, where
glob sees nothing) carries no `last_modified` and no `files` field. -/
theorem get_local_model_info_spec (fs : FS) (m : String) :
    (findEntry fs (dirNameOf m) = none → get_local_model_info fs m = none) ∧
    (∀ e, findEntry fs (dirNameOf m) = some e →
      ∃ info, get_local_model_info fs m = some info ∧ info.exists_ = true ∧
        ((entryFiles e).filter matchesModelExt = [] →
          info.last_modified = none ∧ info.files = none) ∧
        ((entryFiles e).filter matchesModelExt ≠ [] →
          (∃ t, info.last_modified = some t ∧
            (∃ f ∈ (entryFiles e).filter matchesModelExt, f.mtime = t) ∧
            ∀ f ∈ (entryFiles e).filter matchesModelExt, f.mtime ≤ t) ∧
          ∃ l, info.files = some l ∧
            l.Perm (((entryFiles e).filter matchesModelExt).map
              fun f => f.name))) := by
  constructor
  · intro h
    simp [get_local_model_info, h]
  · intro e he
    have hperm := globModelFiles_perm (entryFiles e)
    rcases hg : globModelFiles (entryFiles e) with _ | ⟨f, rest⟩
    · rw [hg] at hperm
      have hfe : (entryFiles e).filter matchesModelExt = [] := hperm.nil_eq.symm
      have hinfo : get_local_model_info fs m = some
          { name := m, path := pathJoin fs.root (dirNameOf m),
            exists_ := true, last_modified := none, files := none } := by
        simp [get_local_model_info, he, hg]
      exact ⟨_, hinfo, rfl, fun _ => ⟨rfl, rfl⟩, fun hne => absurd hfe hne⟩
    · rw [hg] at hperm
      have hne : (entryFiles e).filter matchesModelExt ≠ [] := by
        intro h0
        rw [h0] at hperm
        exact absurd hperm.eq_nil (by simp)
      have hinfo : get_local_model_info fs m = some
          { name := m, path := pathJoin fs.root (dirNameOf m),
            exists_ := true,
            last_modified := some (maxByMtime f rest).mtime,
            files := some ((f :: rest).map fun g => g.name) } := by
        simp [get_local_model_info, he, hg]
      refine ⟨_, hinfo, rfl, fun h0 => absurd h0 hne, fun _ => ⟨?_, ?_⟩⟩
      · refine ⟨(maxByMtime f rest).mtime, rfl, ?_, ?_⟩
        · exact ⟨maxByMtime f rest, hperm.mem_iff.mp (maxByMtime_mem f rest), rfl⟩
        · intro f' hf'
          exact maxByMtime_le f rest f' (hperm.mem_iff.mpr hf')
      · exact ⟨(f :: rest).map fun g => g.name, rfl,
          List.Perm.map (fun g => g.name) hperm⟩

/-- C6 counterexample: at a storage root whose only entry named `a--b`
is a non-directory, the mapped directory does not exist, yet the claim's
"returns nothing" clause fails: `model_dir.exists()` is true for the
stray file, glob on it yields nothing, and the program returns an
`exists = True` record with no `last_modified` and no `files` field. -/
theorem get_local_model_info_nondir_counterexample :
    dirExists nondirFS (dirNameOf "a/b") = false ∧
    get_local_model_info nondirFS "a/b" =
      some { name := "a/b", path := pathJoin "/r" (dirNameOf "a/b"),
             exists_ := true, last_modified := none, files := none } :=
  ⟨by decide, by decide⟩

/-- C6 witness: directory `a--b` with files `m.pth`, `x.bin`, `c.json`. -/
theorem get_local_model_info_spec_witness :
    findEntry sampleFS (dirNameOf "a/b") =
      some (RootItem.dir "a--b" sampleFiles) ∧
    ∃ info, get_local_model_info sampleFS "a/b" = some info ∧
      info.exists_ = true ∧
      (sampleFiles.filter matchesModelExt = [] →
        info.last_modified = none ∧ info.files = none) ∧
      (sampleFiles.filter matchesModelExt ≠ [] →
        (∃ t, info.last_modified = some t ∧
          (∃ f ∈ sampleFiles.filter matchesModelExt, f.mtime = t) ∧
          ∀ f ∈ sampleFiles.filter matchesModelExt, f.mtime ≤ t) ∧
        ∃ l, info.files = some l ∧
          l.Perm ((sampleFiles.filter matchesModelExt).map fun f => f.name)) :=
  ⟨by decide, (get_local_model_info_spec sampleFS "a/b").2
    (RootItem.dir "a--b" sampleFiles) (by decide)⟩

end ModelUpdater

namespace ModelUpdater

/-- On a slash-free name, the inverse then forward mapping is the
identity (string level). -/
theorem dirName_modelId_of_slashFree (n : String) (h : slashFree n = true) :
    dirNameOf (modelIdOf n) = n := by
  have h' : '/' ∉ n.data := by simpa [slashFree] using h
  exact congrArg String.mk (toDirName_toModelId_of_noSlash n.data h')

/-- Every visible directory name comes from a directory entry. -/
theorem exists_dir_of_mem_visible (fs : FS) (n : String)
    (h : n ∈ visibleDirNames fs) :
    ∃ files, RootItem.dir n files ∈ fs.items := by
  obtain ⟨it, hit, heq⟩ := List.mem_filterMap.mp h
  cases it with
  | dir n' files =>
    by_cases hh : startsWithDot n' = true
    · simp [hh] at heq
    · simp [hh] at heq
      exact ⟨files, heq ▸ hit⟩
  | nondir n' => simp at heq

/-- A directory entry guarantees a successful path lookup. -/
theorem findEntry_ne_none_of_dir_mem (fs : FS) (n : String) (files : List MFile)
    (hroot : fs.rootExists = true) (hmem : RootItem.dir n files ∈ fs.items) :
    findEntry fs n ≠ none := by
  intro h
  unfold findEntry at h
  rw [if_pos hroot, List.find?_eq_none] at h
  have := h _ hmem
  simp at this

/-- C7: `list_local_models` is empty when the storage root is absent;
otherwise it is sorted by model name, is a permutation of the records
resolved from the non-hidden immediate subdirectories (non-directory
entries and hidden directories skipped), and resolution succeeds for
every such subdirectory. -/
theorem list_local_models_spec (fs : FS)
    (hsl : ∀ n ∈ visibleDirNames fs, slashFree n = true) :
    (fs.rootExists = false → list_local_models fs = []) ∧
    (fs.rootExists = true →
      (list_local_models fs).Pairwise (fun a b => infoLe a b = true) ∧
      (list_local_models fs).Perm ((visibleDirNames fs).filterMap fun n =>
        get_local_model_info fs (modelIdOf n)) ∧
      ∀ n ∈ visibleDirNames fs,
        get_local_model_info fs (modelIdOf n) ≠ none) := by
  constructor
  · intro h
    simp [list_local_models, h]
  · intro hroot
    have hlm : list_local_models fs =
        ((visibleDirNames fs).filterMap fun n =>
          get_local_model_info fs (modelIdOf n)).mergeSort infoLe := by
      simp [list_local_models, hroot]
    refine ⟨?_, ?_, ?_⟩
    · rw [hlm]
      refine List.sorted_mergeSort ?_ ?_ _
      · intro a b c hab hbc
        simp only [infoLe, decide_eq_true_eq] at hab hbc ⊢
        exact le_trans hab hbc
      · intro a b
        simp only [infoLe, Bool.or_eq_true, decide_eq_true_eq]
        exact le_total a.name b.name
    · rw [hlm]
      exact List.mergeSort_perm _ _
    · intro n hn h0
      obtain ⟨files, hmem⟩ := exists_dir_of_mem_visible fs n hn
      have hdm : dirNameOf (modelIdOf n) = n :=
        dirName_modelId_of_slashFree n (hsl n hn)
      rcases hfd : findEntry fs (dirNameOf (modelIdOf n)) with _ | e
      · rw [hdm] at hfd
        exact findEntry_ne_none_of_dir_mem fs n files hroot hmem hfd
      · rcases hg : globModelFiles (entryFiles e) with _ | ⟨f, rest⟩ <;>
          simp [get_local_model_info, hfd, hg] at h0

/-- C7 witness: a root with two model directories, a hidden directory
and a non-directory entry. -/
theorem list_local_models_spec_witness :
    (∀ n ∈ visibleDirNames listFS, slashFree n = true) ∧
    ((listFS.rootExists = false → list_local_models listFS = []) ∧
     (listFS.rootExists = true →
       (list_local_models listFS).Pairwise (fun a b => infoLe a b = true) ∧
       (list_local_models listFS).Perm ((visibleDirNames listFS).filterMap fun n =>
         get_local_model_info listFS (modelIdOf n)) ∧
       ∀ n ∈ visibleDirNames listFS,
         get_local_model_info listFS (modelIdOf n) ≠ none)) :=
  ⟨by decide, list_local_models_spec listFS (by decide)⟩

end ModelUpdater
